import Mathlib

/-!
# A verification model of the `metal` multi-task weak-supervision core

The repository ships a tutorial notebook (`tutorials/Multitask.ipynb`) that
exercises the `metal.multitask` library: a `TaskHierarchy` task graph, the
`MTLabelModel` label model (`train_model`, `predict_proba`, `score`,
`predict`).  The library implementation itself is not part of the supplied
sources, so the components below are modelled from the specification's
description of the data model and operations, and the claims are settled
against these modelled definitions.
-/

namespace Metal

/-- Modelled from the spec: a `TaskGraph` is a sequence of per-task
cardinalities `K` (labels of task `i` range over `{1, ..., K i}`; label `0`
is reserved for abstention in noisy inputs, not in targets) together with
directed edges `(parent, child)` encoding "if the parent label indicates
non-membership, the child label is forced to its designated NOT-APPLICABLE
class", which for a `TaskHierarchy` is the child's last label index `K c`. -/
structure TaskGraph where
  K : List Nat
  edges : List (Nat × Nat)
deriving DecidableEq, Repr

namespace TaskGraph

/-- Number of tasks. -/
def t (g : TaskGraph) : Nat := g.K.length

/-- Cardinality of task `i` (0 if out of range). -/
def card (g : TaskGraph) (i : Nat) : Nat := g.K.getD i 0

/-- The children of task `p`, in ascending task order. -/
def children (g : TaskGraph) (p : Nat) : List Nat :=
  (List.range g.t).filter (fun c => g.edges.contains (p, c))

/-- Modelled from the spec: the documented convention of the hierarchy,
mapping each edge to the parent label that activates the child's branch.
The children of a parent `p` are bound, in ascending order, to the last
`|children p|` labels of `p`; every other parent label signals the child
"not applicable".  (With cardinality matching the number of children this
is the natural convention: label `r+1` activates the `r`-th child; with a
cardinality-2 parent and a single child, label 1 signals "child not
applicable" and label 2 activates the child.) -/
def activation (g : TaskGraph) (p c : Nat) : Nat :=
  g.card p - (g.children p).length + 1 + (g.children p).indexOf c

/-- Whether parent label `l` on edge `(p, c)` signals "child `c` not
applicable". -/
def signalsNA (g : TaskGraph) (p c l : Nat) : Bool :=
  l != g.activation p c

/-- A candidate label vector assigns each task a label in `{1, ..., K i}`. -/
def inRange (g : TaskGraph) (y : List Nat) : Bool :=
  y.length == g.t &&
    (List.range g.t).all (fun i => 1 ≤ y.getD i 0 && y.getD i 0 ≤ g.card i)

/-- The constraint of a single edge `(p, c)`: if the parent label signals
"child not applicable" then the child label must be the designated
NOT-APPLICABLE class `K c`. -/
def edgeOK (g : TaskGraph) (y : List Nat) (e : Nat × Nat) : Bool :=
  !(g.signalsNA e.1 e.2 (y.getD e.1 0)) || (y.getD e.2 0 == g.card e.2)

/-- Modelled from the spec: the feasibility predicate of the task graph —
a vector is feasible when it is in range and no edge's parent-implied
constraint is violated. -/
def is_feasible (g : TaskGraph) (y : List Nat) : Bool :=
  g.inRange y && g.edges.all (g.edgeOK y)

end TaskGraph

/-- Labels `1, ..., k` of a task with cardinality `k`. -/
def labelRange (k : Nat) : List Nat := (List.range k).map (· + 1)

/-- The full cardinality product space, in lexicographic order over task
index. -/
def productSpace : List Nat → List (List Nat)
  | [] => [[]]
  | k :: rest => (labelRange k).flatMap (fun a => (productSpace rest).map (a :: ·))

/-- Modelled from the spec: the Feasible-Set Enumerator — traverse the
cardinality product space in lexicographic order over task index,
filtering by the graph's feasibility predicate. -/
def feasible_set (g : TaskGraph) : List (List Nat) :=
  (productSpace g.K).filter (fun y => g.is_feasible y)

/-- The dense index assigned to a feasible vector by the enumerator. -/
def vecToIndex (g : TaskGraph) (y : List Nat) : Nat :=
  (feasible_set g).indexOf y

/-- Configuration errors raised by TaskGraph construction. -/
inductive ConfigError where
  | cycle
  | badEndpoint
  | badChildCardinality
deriving DecidableEq, Repr

namespace TaskGraph

/-- The successor (child) ends of the edges leaving `u`. -/
def succs (g : TaskGraph) (u : Nat) : List Nat :=
  (g.edges.filter (fun e => e.1 == u)).map (·.2)

/-- Bounded reachability: is there a directed path from `u` to `v` with at
least one and at most `n` edges? -/
def existsPathLe (g : TaskGraph) : Nat → Nat → Nat → Bool
  | 0, _, _ => false
  | n + 1, u, v => (g.succs u).any (fun w => w == v || g.existsPathLe n w v)

/-- Cycle detection: some task reaches itself by a nonempty path (paths of
length at most `t` suffice). -/
def hasCycle (g : TaskGraph) : Bool :=
  (List.range g.t).any (fun v => g.existsPathLe g.t v v)

/-- Every edge endpoint is a valid task index. -/
def validEndpoints (g : TaskGraph) : Bool :=
  g.edges.all (fun e => decide (e.1 < g.t) && decide (e.2 < g.t))

/-- Every edge's child task has cardinality at least 2 (so that it admits
a NOT-APPLICABLE class). -/
def childCardsOK (g : TaskGraph) : Bool :=
  g.edges.all (fun e => decide (2 ≤ g.card e.2))

/-- Modelled from the spec: TaskGraph construction-time validation (the
`TaskHierarchy` constructor is not part of the supplied sources).  It
fails with a configuration error when an edge endpoint is out of range,
when the edges contain a cycle, or when some edge's child task has
cardinality below 2; otherwise construction succeeds. -/
def validate (g : TaskGraph) : Except ConfigError Unit :=
  if g.validEndpoints = false then .error .badEndpoint
  else if g.hasCycle = true then .error .cycle
  else if g.childCardsOK = false then .error .badChildCardinality
  else .ok ()

/-- The edge relation of the graph, as a proposition. -/
def Adj (g : TaskGraph) (u v : Nat) : Prop := (u, v) ∈ g.edges

/-- The edges contain a directed cycle: some vertex reaches itself through
at least one edge. -/
def HasCycle (g : TaskGraph) : Prop := ∃ v, Relation.TransGen g.Adj v v

/-- Every edge references valid task indices, as a proposition. -/
def EndpointsValid (g : TaskGraph) : Prop := ∀ e ∈ g.edges, e.1 < g.t ∧ e.2 < g.t

/-- Every edge's child task has cardinality at least 2, as a proposition. -/
def ChildCardsValid (g : TaskGraph) : Prop := ∀ e ∈ g.edges, 2 ≤ g.card e.2

end TaskGraph

/-- The two-task hierarchy of the spec's table-driven test:
`cardinalities = [2,3]`, single edge `(0,1)`. -/
def g23 : TaskGraph := ⟨[2, 3], [(0, 1)]⟩

/-- The notebook's three-task hierarchy: `cardinalities = [2,3,3]`,
`edges = [(0,1),(0,2)]`. -/
def g233 : TaskGraph := ⟨[2, 3, 3], [(0, 1), (0, 2)]⟩

/-- Errors of the label model facade: malformed input shapes at the start
of training, or use of an untrained model. -/
inductive ModelError where
  | shapeError
  | stateError
deriving DecidableEq, Repr

/-- Modelled from the spec: the label model facade (`MTLabelModel` of the
library is not part of the supplied sources).  It holds the task graph and
the estimated accuracy parameters `mu`; `mu = none` is the UNTRAINED
state, `mu = some _` the TRAINED state. -/
structure MTLabelModel where
  task_graph : TaskGraph
  mu : Option (List ℚ) := Option.none
deriving DecidableEq

/-- The `(rows, columns)` dimensions declared by the first noisy label
matrix: number of examples and number of labeling functions. -/
def dims (L : List (List (List Nat))) : Nat × Nat :=
  ((L.getD 0 []).length, ((L.getD 0 []).getD 0 []).length)

/-- Modelled from the spec: the data-shape validation run at the start of
training — one matrix per task, all matrices row-aligned with `n` example
rows of `m` labeling-function votes each, and every entry within the
task's label range `{0, ..., K i}` (0 = abstention). -/
def shapeOK (g : TaskGraph) (L : List (List (List Nat))) : Bool :=
  (L.length == g.t) &&
    L.all (fun M =>
      M.length == (dims L).1 && M.all (fun row => row.length == (dims L).2)) &&
    (List.range g.t).all (fun i =>
      (L.getD i []).all (fun row => row.all (fun v => v ≤ g.card i)))

/-- The flattened list of vote columns: one per (task, labeling function)
pair. -/
def colList (t m : Nat) : List (Nat × Nat) :=
  (List.range t).flatMap (fun i => (List.range m).map (fun j => (i, j)))

/-- The vote of labeling function `j` of task `i` on example `x`
(0 = abstention; 0 also when out of range). -/
def vote (L : List (List (List Nat))) (i j x : Nat) : Nat :=
  ((L.getD i []).getD x []).getD j 0

/-- Number of examples among the first `n` on which both columns cast a
non-abstaining vote.  Abstentions contribute zero weight. -/
def coCount (L : List (List (List Nat))) (a b : Nat × Nat) (n : Nat) : Nat :=
  ((List.range n).filter (fun x =>
    (vote L a.1 a.2 x != 0) && (vote L b.1 b.2 x != 0))).length

/-- Whether a task-`i` label `u` and a task-`j` label `v` agree: equality
on the same task, co-occurrence in some feasible vector across tasks. -/
def votesCompatible (g : TaskGraph) (i u j v : Nat) : Bool :=
  if i == j then u == v
  else (feasible_set g).any (fun y => y.getD i 0 == u && y.getD j 0 == v)

/-- Number of examples among the first `n` on which both columns vote and
their votes agree (overlap statistic; abstentions contribute zero
weight). -/
def agreeCount (g : TaskGraph) (L : List (List (List Nat))) (n : Nat)
    (a b : Nat × Nat) : Nat :=
  ((List.range n).filter (fun x =>
    (vote L a.1 a.2 x != 0) && (vote L b.1 b.2 x != 0) &&
      votesCompatible g a.1 (vote L a.1 a.2 x) b.1 (vote L b.1 b.2 x))).length

/-- The fixed learning rate of the modelled optimizer. -/
def lr : ℚ := 1 / 100

/-- Modelled from the spec: the gradient of the squared-discrepancy
loss `Σ (agree a b - co a b * mu a * mu b)^2` with respect to the
accuracy parameter of column `ai`; every term carries the co-vote count
of the pair as a factor, so abstention-only columns receive zero
gradient. -/
def gradAt (g : TaskGraph) (L : List (List (List Nat))) (n : Nat)
    (cols : List (Nat × Nat)) (mu : List ℚ) (ai : Nat) : ℚ :=
  ((List.range cols.length).map (fun bi =>
    if bi == ai then 0
    else
      (coCount L (cols.getD ai (0, 0)) (cols.getD bi (0, 0)) n : ℚ) *
        ((-2) * mu.getD bi 0 *
          ((agreeCount g L n (cols.getD ai (0, 0)) (cols.getD bi (0, 0)) : ℚ) -
            (coCount L (cols.getD ai (0, 0)) (cols.getD bi (0, 0)) n : ℚ) *
              mu.getD ai 0 * mu.getD bi 0)))).sum

/-- One epoch of the modelled method-of-moments optimizer: a gradient
step on every accuracy parameter, in fixed column order. -/
def muStep (g : TaskGraph) (L : List (List (List Nat))) (n : Nat)
    (cols : List (Nat × Nat)) (mu : List ℚ) : List ℚ :=
  (List.range cols.length).map (fun ai => mu.getD ai 0 - lr * gradAt g L n cols mu ai)

/-- Modelled from the spec: seed-determined initialization of the accuracy
parameters — a fixed pseudo-random prior in `(0, 1)` computed from the
seed and the parameter index. -/
def initMu (seed M : Nat) : List ℚ :=
  (List.range M).map (fun a => (6 + ((seed + a) % 3 : Nat) : ℚ) / 10)

/-- Modelled from the spec: `train_model` — validate input shapes, compute
the overlap statistics, and run exactly `n_epochs` optimizer epochs from
the seeded initialization.  Any previously trained parameters are
discarded; non-convergence is never an error. -/
def train_model (model : MTLabelModel) (L : List (List (List Nat)))
    (n_epochs seed : Nat) : Except ModelError MTLabelModel :=
  if shapeOK model.task_graph L then
    Except.ok
      { task_graph := model.task_graph,
        mu := some
          ((muStep model.task_graph L (dims L).1 (colList model.task_graph.t (dims L).2))^[n_epochs]
            (initMu seed (colList model.task_graph.t (dims L).2).length)) }
  else Except.error ModelError.shapeError

/-- Clamp an accuracy parameter into `[0, 1]` for use as a probability. -/
def clamp01 (q : ℚ) : ℚ := max 0 (min 1 q)

/-- The generative score of feasible vector `y` on example `x`: product
over non-abstaining votes of the (clamped) accuracy when the vote agrees
with `y` and its complement when it disagrees. -/
def vecScore (g : TaskGraph) (L : List (List (List Nat))) (m : Nat)
    (mu : List ℚ) (x : Nat) (y : List Nat) : ℚ :=
  ((List.range (colList g.t m).length).map (fun ai =>
    let a := (colList g.t m).getD ai (0, 0)
    let u := vote L a.1 a.2 x
    if u = 0 then 1
    else if u = y.getD a.1 0 then clamp01 (mu.getD ai 0)
    else 1 - clamp01 (mu.getD ai 0))).prod

/-- The per-example distribution over the enumerated feasible vectors:
normalized generative scores, or the uniform distribution when all scores
vanish. -/
def predict_proba_row (g : TaskGraph) (L : List (List (List Nat))) (m : Nat)
    (mu : List ℚ) (x : Nat) : List ℚ :=
  let scores := (feasible_set g).map (vecScore g L m mu x)
  if scores.sum = 0 then
    (feasible_set g).map (fun _ => 1 / ((feasible_set g).length : ℚ))
  else scores.map (fun q => q / scores.sum)

/-- Modelled from the spec: `predict_proba` — requires the TRAINED state
and returns, for every example, a distribution over the enumerated
feasible label vectors. -/
def predict_proba (model : MTLabelModel) (L : List (List (List Nat))) :
    Except ModelError (List (List ℚ)) :=
  match model.mu with
  | Option.none => Except.error ModelError.stateError
  | some mu =>
    Except.ok ((List.range (dims L).1).map (fun x =>
      predict_proba_row model.task_graph L (dims L).2 mu x))

/-- Index of the first maximal element of a list of rationals. -/
def argmaxIdx (qs : List ℚ) : Nat :=
  (List.range qs.length).foldl
    (fun best i => if qs.getD best 0 < qs.getD i 0 then i else best) 0

/-- The label model's hard joint prediction for example `x`: the feasible
vector of maximal probability. -/
def predictVec (g : TaskGraph) (L : List (List (List Nat))) (m : Nat)
    (mu : List ℚ) (x : Nat) : List Nat :=
  (feasible_set g).getD (argmaxIdx (predict_proba_row g L m mu x)) []

/-- Modelled from the spec: the label model's `predict` — the joint
feasible vector of maximal probability for every example. -/
def predict (model : MTLabelModel) (L : List (List (List Nat))) :
    Except ModelError (List (List Nat)) :=
  match model.mu with
  | Option.none => Except.error ModelError.stateError
  | some mu =>
    Except.ok ((List.range (dims L).1).map (fun x =>
      predictVec model.task_graph L (dims L).2 mu x))

/-- Modelled from the notebook: the decoding of the multi-task end model's
`predict` — each task head produces scores over that task's labels and is
decoded independently of the other heads by argmax (`+ 1` because labels
are 1-based).  The notebook's recorded output confirms per-task
independent decoding: its test-set predictions contain the joint vector
`(1, 3, 1)` (examples 64 and 77), which pairs PERSON with HOSPITAL. -/
def headPredict (scores : List ℚ) : Nat := argmaxIdx scores + 1

/-- The end model's joint per-task hard predictions from its per-task head
scores. -/
def endPredict (heads : List (List ℚ)) : List Nat := heads.map headPredict

/-- Per-task accuracy of the label model's hard predictions against ground
truth `Y` (task-indexed lists of per-example target labels). -/
def taskAccuracy (g : TaskGraph) (L : List (List (List Nat)))
    (Y : List (List Nat)) (mu : List ℚ) (i : Nat) : ℚ :=
  (((List.range (dims L).1).filter (fun x =>
      (predictVec g L (dims L).2 mu x).getD i 0 == (Y.getD i []).getD x 0)).length : ℚ) /
    ((dims L).1 : ℚ)

/-- Modelled from the spec: `score` with `reduce_mode = none` — the
sequence of per-task accuracies; requires the TRAINED state. -/
def scoreTasks (model : MTLabelModel) (L : List (List (List Nat)))
    (Y : List (List Nat)) : Except ModelError (List ℚ) :=
  match model.mu with
  | Option.none => Except.error ModelError.stateError
  | some mu =>
    Except.ok ((List.range model.task_graph.t).map
      (taskAccuracy model.task_graph L Y mu))

/-- Modelled from the spec: `score` with `reduce_mode = mean` (the
default) — the arithmetic mean across tasks of the per-task accuracies. -/
def scoreMean (model : MTLabelModel) (L : List (List (List Nat)))
    (Y : List (List Nat)) : Except ModelError ℚ :=
  (scoreTasks model L Y).map (fun s => s.sum / (s.length : ℚ))

/-- Membership in `labelRange k` is exactly the labels `1 ≤ a ≤ k`. -/
theorem mem_labelRange {k a : Nat} : a ∈ labelRange k ↔ 1 ≤ a ∧ a ≤ k := by
  simp only [labelRange, List.mem_map, List.mem_range]
  constructor
  · rintro ⟨b, hb, rfl⟩; omega
  · rintro ⟨h1, h2⟩; exact ⟨a - 1, by omega, by omega⟩

/-- `labelRange` has no duplicates. -/
theorem labelRange_nodup (k : Nat) : (labelRange k).Nodup :=
  (List.nodup_range k).map (fun _ _ => by omega)

/-- Membership in the product space is exactly being a vector of in-range
labels, one per task. -/
theorem mem_productSpace {Ks : List Nat} {y : List Nat} :
    y ∈ productSpace Ks ↔
      y.length = Ks.length ∧
        ∀ i, i < Ks.length → 1 ≤ y.getD i 0 ∧ y.getD i 0 ≤ Ks.getD i 0 := by
  induction Ks generalizing y with
  | nil =>
    simp only [productSpace, List.mem_singleton, List.length_nil]
    constructor
    · rintro rfl
      exact ⟨rfl, fun i hi => absurd hi (Nat.not_lt_zero i)⟩
    · rintro ⟨h, -⟩; exact List.eq_nil_of_length_eq_zero h
  | cons k rest ih =>
    simp only [productSpace, List.mem_flatMap, List.mem_map]
    constructor
    · rintro ⟨a, ha, z, hz, rfl⟩
      obtain ⟨hlen, hall⟩ := ih.mp hz
      obtain ⟨ha1, hak⟩ := mem_labelRange.mp ha
      refine ⟨by simpa using hlen, ?_⟩
      intro i hi
      cases i with
      | zero => simpa using ⟨ha1, hak⟩
      | succ j =>
        have := hall j (by simpa using hi)
        simpa using this
    · rintro ⟨hlen, hall⟩
      cases y with
      | nil => simp at hlen
      | cons a z =>
        have h0 := hall 0 (by simp)
        simp only [List.getD_cons_zero] at h0
        refine ⟨a, mem_labelRange.mpr h0, z, ih.mpr ⟨by simpa using hlen, ?_⟩, rfl⟩
        intro j hj
        have := hall (j + 1) (by simpa using hj)
        simpa using this

/-- The product space has no duplicate vectors. -/
theorem productSpace_nodup (Ks : List Nat) : (productSpace Ks).Nodup := by
  induction Ks with
  | nil => simp [productSpace]
  | cons k rest ih =>
    refine List.nodup_flatMap.mpr ⟨fun a _ => ih.map (fun _ _ h => by injection h), ?_⟩
    refine (labelRange_nodup k).pairwise_of_forall_ne ?_
    intro a ha b hb hne
    intro y hy hy'
    obtain ⟨z, -, rfl⟩ := List.mem_map.mp hy
    obtain ⟨w, -, hw⟩ := List.mem_map.mp hy'
    exact hne (by injection hw.symm)

/-- A vector belongs to the enumerated feasible set iff the feasibility
predicate accepts it. -/
theorem mem_feasible_set {g : TaskGraph} {y : List Nat} :
    y ∈ feasible_set g ↔ g.is_feasible y = true := by
  unfold feasible_set
  rw [List.mem_filter]
  constructor
  · rintro ⟨-, h⟩; exact h
  · intro h
    refine ⟨?_, h⟩
    have hin : g.inRange y = true := by
      unfold TaskGraph.is_feasible at h
      exact ((Bool.and_eq_true _ _).mp h).1
    unfold TaskGraph.inRange at hin
    obtain ⟨hlen, hall⟩ := (Bool.and_eq_true _ _).mp hin
    refine mem_productSpace.mpr ⟨by simpa [TaskGraph.t] using hlen, ?_⟩
    intro i hi
    have := List.all_eq_true.mp hall i (List.mem_range.mpr hi)
    simpa [TaskGraph.card] using ((Bool.and_eq_true _ _).mp this)

/-- The enumerated feasible set has no duplicates. -/
theorem feasible_set_nodup (g : TaskGraph) : (feasible_set g).Nodup :=
  (productSpace_nodup g.K).filter _

/-- The index assigned to the `i`-th enumerated vector is `i`: the
vector-to-index mapping inverts the enumeration. -/
theorem vecToIndex_get (g : TaskGraph) (i : Nat) (h : i < (feasible_set g).length) :
    vecToIndex g ((feasible_set g).get ⟨i, h⟩) = i := by
  unfold vecToIndex
  have hinst : (List.instBEq : BEq (List Nat)) = instBEqOfDecidableEq :=
    lawful_beq_subsingleton _ _
  rw [List.get_eq_getElem, hinst]
  exact List.indexOf_getElem (feasible_set_nodup g) i h

/-- The feasible set of the two-task hierarchy, in enumeration order. -/
theorem feasible_set_g23 : feasible_set g23 = [[1, 3], [2, 1], [2, 2], [2, 3]] := by
  decide

/-- The feasible set of the notebook's three-task hierarchy, in
enumeration order. -/
theorem feasible_set_g233 :
    feasible_set g233 =
      [[1, 1, 3], [1, 2, 3], [1, 3, 3], [2, 3, 1], [2, 3, 2], [2, 3, 3]] := by
  decide


namespace TaskGraph

/-- Membership in the successor list is exactly the edge relation. -/
theorem mem_succs {g : TaskGraph} {u w : Nat} : w ∈ g.succs u ↔ g.Adj u w := by
  unfold succs Adj
  simp only [List.mem_map, List.mem_filter]
  constructor
  · rintro ⟨e, ⟨he, heq⟩, rfl⟩
    have h1 : e.1 = u := by simpa using heq
    rw [← h1]
    simpa using he
  · intro h
    exact ⟨(u, w), ⟨h, by simp⟩, rfl⟩

/-- Bounded reachability is monotone in the bound. -/
theorem existsPathLe_mono (g : TaskGraph) :
    ∀ (n m u v : Nat), n ≤ m → g.existsPathLe n u v = true →
      g.existsPathLe m u v = true := by
  intro n
  induction n with
  | zero => intro m u v _ h; simp [existsPathLe] at h
  | succ k ih =>
    intro m u v hnm h
    obtain ⟨m', rfl⟩ : ∃ m', m = m' + 1 := ⟨m - 1, by omega⟩
    unfold existsPathLe at h ⊢
    obtain ⟨w, hw, hor⟩ := List.any_eq_true.mp h
    refine List.any_eq_true.mpr ⟨w, hw, ?_⟩
    rcases (Bool.or_eq_true _ _).mp hor with h1 | h2
    · exact (Bool.or_eq_true _ _).mpr (Or.inl h1)
    · exact (Bool.or_eq_true _ _).mpr (Or.inr (ih m' w v (by omega) h2))

/-- Bounded reachability is sound for the transitive closure of the edge
relation. -/
theorem existsPathLe_sound (g : TaskGraph) :
    ∀ (n u v : Nat), g.existsPathLe n u v = true →
      Relation.TransGen g.Adj u v := by
  intro n
  induction n with
  | zero => intro u v h; simp [existsPathLe] at h
  | succ k ih =>
    intro u v h
    unfold existsPathLe at h
    obtain ⟨w, hw, hor⟩ := List.any_eq_true.mp h
    have hadj : g.Adj u w := mem_succs.mp hw
    rcases (Bool.or_eq_true _ _).mp hor with h1 | h2
    · have hwv : w = v := by simpa using h1
      exact hwv ▸ Relation.TransGen.single hadj
    · exact Relation.TransGen.head hadj (ih w v h2)

/-- A chain of edges of length `l.length + 1` witnesses bounded
reachability with that bound. -/
theorem chain_existsPathLe (g : TaskGraph) :
    ∀ (l : List Nat) (u v : Nat), List.Chain g.Adj u (l ++ [v]) →
      g.existsPathLe (l.length + 1) u v = true := by
  intro l
  induction l with
  | nil =>
    intro u v h
    rw [List.nil_append, List.chain_cons] at h
    unfold existsPathLe
    refine List.any_eq_true.mpr ⟨v, mem_succs.mpr h.1, ?_⟩
    simp
  | cons w l' ih =>
    intro u v h
    rw [List.cons_append, List.chain_cons] at h
    unfold existsPathLe
    refine List.any_eq_true.mpr ⟨w, mem_succs.mpr h.1, ?_⟩
    have hrec := ih w v h.2
    simp only [List.length_cons]
    exact (Bool.or_eq_true _ _).mpr (Or.inr hrec)

end TaskGraph

/-- Extending a chain by one edge at its last element. -/
theorem chain_snoc {r : Nat → Nat → Prop} :
    ∀ (l : List Nat) (a b c : Nat), List.Chain r a l →
      (a :: l).getLast (List.cons_ne_nil a l) = b → r b c →
      List.Chain r a (l ++ [c]) := by
  intro l
  induction l with
  | nil =>
    intro a b c _ hlast hr
    simp only [List.getLast_singleton] at hlast
    subst hlast
    exact List.Chain.cons hr List.Chain.nil
  | cons w l' ih =>
    intro a b c hch hlast hr
    rw [List.chain_cons] at hch
    rw [List.cons_append, List.chain_cons]
    refine ⟨hch.1, ih w b c hch.2 ?_ hr⟩
    rw [List.getLast_cons (List.cons_ne_nil w l')] at hlast
    exact hlast

/-- Every element of a chain's tail is the target of some edge of the
relation. -/
theorem chain_targets {g : TaskGraph} :
    ∀ (l : List Nat) (a : Nat), List.Chain g.Adj a l →
      ∀ x ∈ l, ∃ y, g.Adj y x := by
  intro l
  induction l with
  | nil => intro a _ x hx; simp at hx
  | cons w l' ih =>
    intro a hch x hx
    rw [List.chain_cons] at hch
    rcases List.mem_cons.mp hx with rfl | hx'
    · exact ⟨a, hch.1⟩
    · exact ih w hch.2 x hx'

/-- With valid endpoints, both ends of every edge are below the task
count. -/
theorem endpoints_lt {g : TaskGraph} (hv : g.validEndpoints = true) {u v : Nat}
    (h : g.Adj u v) : u < g.t ∧ v < g.t := by
  have hall := List.all_eq_true.mp hv (u, v) h
  have := (Bool.and_eq_true _ _).mp hall
  simpa using this

/-- A list of naturals below `n` that is longer than `n` has a
duplicate. -/
theorem not_nodup_of_bounded {L : List Nat} {n : Nat}
    (hall : ∀ x ∈ L, x < n) (hlen : n < L.length) : ¬ L.Nodup := by
  intro nd
  have hsub : L.toFinset ⊆ Finset.range n := by
    intro x hx
    exact Finset.mem_range.mpr (hall x (List.mem_toFinset.mp hx))
  have hcard := Finset.card_le_card hsub
  rw [Finset.card_range] at hcard
  have := List.toFinset_card_of_nodup nd
  omega

/-- A duplicated element splits its list into three segments. -/
theorem duplicate_split (x : Nat) :
    ∀ (L : List Nat), List.Duplicate x L →
      ∃ l1 l2 l3, L = l1 ++ (x :: (l2 ++ (x :: l3))) := by
  intro L
  induction L with
  | nil => intro h; exact absurd h (List.not_duplicate_nil x)
  | cons y L' ih =>
    intro h
    rcases List.duplicate_cons_iff.mp h with ⟨rfl, hx⟩ | h'
    · obtain ⟨s, u, rfl⟩ := List.append_of_mem hx
      exact ⟨[], s, u, rfl⟩
    · obtain ⟨l1, l2, l3, rfl⟩ := ih h'
      exact ⟨y :: l1, l2, l3, rfl⟩

namespace TaskGraph

/-- A closed chain of edges over valid endpoints makes the cycle detector
fire: a closed walk can be shortened below the vertex count. -/
theorem closed_chain_hasCycle (g : TaskGraph) (hv : g.validEndpoints = true) :
    ∀ (N : Nat) (l : List Nat) (v : Nat), (l ++ [v]).length ≤ N →
      List.Chain g.Adj v (l ++ [v]) → g.hasCycle = true := by
  intro N
  induction N using Nat.strong_induction_on with
  | _ N ih =>
    intro l v hlen hch
    by_cases hle : l.length + 1 ≤ g.t
    · have hv_lt : v < g.t := by
        cases l with
        | nil =>
          have hadj : g.Adj v v := by simpa using hch
          exact (endpoints_lt hv hadj).1
        | cons w l' =>
          have hadj : g.Adj v w := by
            rw [List.cons_append, List.chain_cons] at hch
            exact hch.1
          exact (endpoints_lt hv hadj).1
      have hp := chain_existsPathLe g l v v hch
      have hp' := existsPathLe_mono g (l.length + 1) g.t v v hle hp
      unfold hasCycle
      exact List.any_eq_true.mpr ⟨v, List.mem_range.mpr hv_lt, hp'⟩
    · have hbound : ∀ x ∈ l ++ [v], x < g.t := by
        intro x hx
        obtain ⟨y, hy⟩ := chain_targets (l ++ [v]) v hch x hx
        exact (endpoints_lt hv hy).2
      have hnotnodup : ¬ (l ++ [v]).Nodup := by
        apply not_nodup_of_bounded hbound
        simp only [List.length_append, List.length_singleton]
        omega
      obtain ⟨x, hdup⟩ := List.exists_duplicate_iff_not_nodup.mpr hnotnodup
      obtain ⟨l1, l2, l3, heq⟩ := duplicate_split x (l ++ [v]) hdup
      rw [heq] at hch
      have hch1 : List.Chain g.Adj x (l2 ++ (x :: l3)) :=
        (List.chain_split.mp hch).2
      have hch2 : List.Chain g.Adj x (l2 ++ [x]) :=
        (List.chain_split.mp hch1).1
      have hlt : (l2 ++ [x]).length < N := by
        have hlength := congrArg List.length heq
        simp only [List.length_append, List.length_singleton, List.length_nil,
          List.length_cons] at hlength hlen ⊢
        omega
      exact ih (l2 ++ [x]).length hlt l2 x (le_refl _) hch2

/-- With valid endpoints, the cycle detector decides the existence of a
directed cycle. -/
theorem hasCycle_iff (g : TaskGraph) (hv : g.validEndpoints = true) :
    g.hasCycle = true ↔ g.HasCycle := by
  constructor
  · intro h
    unfold hasCycle at h
    obtain ⟨v, hvmem, hp⟩ := List.any_eq_true.mp h
    exact ⟨v, existsPathLe_sound g g.t v v hp⟩
  · rintro ⟨v, htrans⟩
    obtain ⟨b, hrefl, hadj⟩ := Relation.TransGen.tail'_iff.mp htrans
    obtain ⟨l, hchain, hlast⟩ := List.exists_chain_of_relationReflTransGen hrefl
    have hsnoc := chain_snoc l v b v hchain hlast hadj
    exact closed_chain_hasCycle g hv (l ++ [v]).length l v (le_refl _) hsnoc

/-- The endpoint check decides endpoint validity. -/
theorem validEndpoints_iff (g : TaskGraph) :
    g.validEndpoints = true ↔ g.EndpointsValid := by
  unfold validEndpoints EndpointsValid
  rw [List.all_eq_true]
  constructor
  · intro h e he
    have := (Bool.and_eq_true _ _).mp (h e he)
    simpa using this
  · intro h e he
    have := h e he
    simp [this.1, this.2]

/-- The child-cardinality check decides child-cardinality validity. -/
theorem childCardsOK_iff (g : TaskGraph) :
    g.childCardsOK = true ↔ g.ChildCardsValid := by
  unfold childCardsOK ChildCardsValid
  rw [List.all_eq_true]
  constructor
  · intro h e he
    simpa using h e he
  · intro h e he
    simpa using h e he

end TaskGraph


/-- `getD` of a map over `List.range` evaluates the function, below the
bound. -/
theorem getD_range_map {α : Type} (f : Nat → α) {M i : Nat} (d : α) (h : i < M) :
    ((List.range M).map f).getD i d = f i := by
  have h1 : i < ((List.range M).map f).length := by simpa using h
  rw [List.getD_eq_getElem ((List.range M).map f) d h1, List.getElem_map, List.getElem_range]

/-- Distributing a division over a list sum. -/
theorem sum_map_div (l : List ℚ) (s : ℚ) :
    (l.map (fun q => q / s)).sum = l.sum / s := by
  induction l with
  | nil => simp
  | cons a l' ih => simp [ih, add_div]

/-- The clamped accuracy lies in `[0, 1]`. -/
theorem clamp01_mem (q : ℚ) : 0 ≤ clamp01 q ∧ clamp01 q ≤ 1 := by
  unfold clamp01
  constructor
  · exact le_max_left 0 _
  · exact max_le zero_le_one (min_le_left 1 q)

/-- Generative scores are nonnegative. -/
theorem vecScore_nonneg (g : TaskGraph) (L : List (List (List Nat))) (m : Nat)
    (mu : List ℚ) (x : Nat) (y : List Nat) : 0 ≤ vecScore g L m mu x y := by
  unfold vecScore
  apply List.prod_nonneg
  intro a ha
  obtain ⟨ai, -, rfl⟩ := List.mem_map.mp ha
  dsimp only
  split
  · exact zero_le_one
  · split
    · exact (clamp01_mem _).1
    · have := (clamp01_mem ((mu.getD ai 0))).2
      linarith


/-- A column that abstains on every example co-votes with no column. -/
theorem coCount_eq_zero_left {L : List (List (List Nat))} {a : Nat × Nat}
    {n : Nat} (habs : ∀ x, x < n → vote L a.1 a.2 x = 0) (b : Nat × Nat) :
    coCount L a b n = 0 := by
  unfold coCount
  rw [List.length_eq_zero]
  rw [List.filter_eq_nil_iff]
  intro x hx
  have hv := habs x (List.mem_range.mp hx)
  simp [hv]

/-- A column that abstains on every example co-votes with no column (right
position). -/
theorem coCount_eq_zero_right {L : List (List (List Nat))} {b : Nat × Nat}
    {n : Nat} (habs : ∀ x, x < n → vote L b.1 b.2 x = 0) (a : Nat × Nat) :
    coCount L a b n = 0 := by
  unfold coCount
  rw [List.length_eq_zero]
  rw [List.filter_eq_nil_iff]
  intro x hx
  have hv := habs x (List.mem_range.mp hx)
  simp [hv]

/-- A column that abstains on every example agrees with no column. -/
theorem agreeCount_eq_zero_left {g : TaskGraph} {L : List (List (List Nat))}
    {a : Nat × Nat} {n : Nat} (habs : ∀ x, x < n → vote L a.1 a.2 x = 0)
    (b : Nat × Nat) : agreeCount g L n a b = 0 := by
  unfold agreeCount
  rw [List.length_eq_zero]
  rw [List.filter_eq_nil_iff]
  intro x hx
  have hv := habs x (List.mem_range.mp hx)
  simp [hv]

/-- A column that abstains on every example agrees with no column (right
position). -/
theorem agreeCount_eq_zero_right {g : TaskGraph} {L : List (List (List Nat))}
    {b : Nat × Nat} {n : Nat} (habs : ∀ x, x < n → vote L b.1 b.2 x = 0)
    (a : Nat × Nat) : agreeCount g L n a b = 0 := by
  unfold agreeCount
  rw [List.length_eq_zero]
  rw [List.filter_eq_nil_iff]
  intro x hx
  have hv := habs x (List.mem_range.mp hx)
  simp [hv]

/-- The gradient at a column that abstains on every example vanishes, for
every value of the parameters: each of its terms carries the column's
co-vote count as a factor. -/
theorem gradAt_eq_zero {g : TaskGraph} {L : List (List (List Nat))} {n : Nat}
    (cols : List (Nat × Nat)) (mu : List ℚ) (ai : Nat)
    (habs : ∀ x, x < n → vote L (cols.getD ai (0, 0)).1 (cols.getD ai (0, 0)).2 x = 0) :
    gradAt g L n cols mu ai = 0 := by
  unfold gradAt
  apply List.sum_eq_zero
  intro q hq
  obtain ⟨bi, -, rfl⟩ := List.mem_map.mp hq
  by_cases hbi : bi = ai
  · simp [hbi]
  · rw [if_neg (by simpa using hbi)]
    rw [coCount_eq_zero_left habs (cols.getD bi (0, 0))]
    norm_num

/-- One optimizer epoch leaves the parameter of an always-abstaining
column unchanged. -/
theorem muStep_abstain_fixed {g : TaskGraph} {L : List (List (List Nat))}
    {n : Nat} {cols : List (Nat × Nat)} {ai : Nat} (h_ai : ai < cols.length)
    (habs : ∀ x, x < n → vote L (cols.getD ai (0, 0)).1 (cols.getD ai (0, 0)).2 x = 0)
    (mu : List ℚ) :
    (muStep g L n cols mu).getD ai 0 = mu.getD ai 0 := by
  unfold muStep
  rw [getD_range_map _ _ h_ai]
  rw [gradAt_eq_zero cols mu ai habs]
  ring

/-- Every number of optimizer epochs leaves the parameter of an
always-abstaining column unchanged. -/
theorem iterate_abstain_fixed {g : TaskGraph} {L : List (List (List Nat))}
    {n : Nat} {cols : List (Nat × Nat)} {ai : Nat} (h_ai : ai < cols.length)
    (habs : ∀ x, x < n → vote L (cols.getD ai (0, 0)).1 (cols.getD ai (0, 0)).2 x = 0)
    (mu0 : List ℚ) (e : Nat) :
    ((muStep g L n cols)^[e] mu0).getD ai 0 = mu0.getD ai 0 := by
  induction e with
  | zero => simp
  | succ k ih =>
    rw [Function.iterate_succ_apply']
    rw [muStep_abstain_fixed h_ai habs]
    exact ih


/-- The all-`K` vector (each task at its designated last label) is always
feasible when every cardinality is positive. -/
theorem K_mem_feasible {g : TaskGraph} (hK : ∀ k ∈ g.K, 1 ≤ k) :
    g.K ∈ feasible_set g := by
  apply mem_feasible_set.mpr
  unfold TaskGraph.is_feasible
  apply (Bool.and_eq_true _ _).mpr
  constructor
  · unfold TaskGraph.inRange
    apply (Bool.and_eq_true _ _).mpr
    refine ⟨by simp [TaskGraph.t], ?_⟩
    apply List.all_eq_true.mpr
    intro i hi
    have hmem : g.K.getD i 0 ∈ g.K := by
      rw [List.getD_eq_getElem g.K 0 (by simpa [TaskGraph.t] using List.mem_range.mp hi)]
      exact List.getElem_mem _
    have h1 := hK _ hmem
    simp only [Bool.and_eq_true, decide_eq_true_eq]
    exact ⟨h1, le_refl _⟩
  · apply List.all_eq_true.mpr
    intro e he
    unfold TaskGraph.edgeOK
    apply (Bool.or_eq_true _ _).mpr
    right
    simp [TaskGraph.card]

/-- The feasible set is nonempty when every cardinality is positive. -/
theorem feasible_set_length_pos {g : TaskGraph} (hK : ∀ k ∈ g.K, 1 ≤ k) :
    0 < (feasible_set g).length :=
  List.length_pos_of_mem (K_mem_feasible hK)

/-- The per-example probability row has one entry per feasible vector. -/
theorem predict_proba_row_length (g : TaskGraph) (L : List (List (List Nat)))
    (m : Nat) (mu : List ℚ) (x : Nat) :
    (predict_proba_row g L m mu x).length = (feasible_set g).length := by
  unfold predict_proba_row
  dsimp only
  split
  · simp
  · simp

/-- Every entry of the per-example probability row is nonnegative. -/
theorem predict_proba_row_nonneg (g : TaskGraph) (L : List (List (List Nat)))
    (m : Nat) (mu : List ℚ) (x : Nat) (hK : ∀ k ∈ g.K, 1 ≤ k) :
    ∀ q ∈ predict_proba_row g L m mu x, 0 ≤ q := by
  unfold predict_proba_row
  dsimp only
  intro q hq
  split at hq
  · obtain ⟨y, -, rfl⟩ := List.mem_map.mp hq
    have hpos : (0 : ℚ) < ((feasible_set g).length : ℚ) := by
      exact_mod_cast feasible_set_length_pos hK
    positivity
  · obtain ⟨p, hp, rfl⟩ := List.mem_map.mp hq
    obtain ⟨y, -, rfl⟩ := List.mem_map.mp hp
    have hnum := vecScore_nonneg g L m mu x y
    have hden : 0 ≤ ((feasible_set g).map (vecScore g L m mu x)).sum :=
      List.sum_nonneg (fun q hq => by
        obtain ⟨z, -, rfl⟩ := List.mem_map.mp hq
        exact vecScore_nonneg g L m mu x z)
    exact div_nonneg hnum hden

/-- Every per-example probability row sums to one. -/
theorem predict_proba_row_sum (g : TaskGraph) (L : List (List (List Nat)))
    (m : Nat) (mu : List ℚ) (x : Nat) (hK : ∀ k ∈ g.K, 1 ≤ k) :
    (predict_proba_row g L m mu x).sum = 1 := by
  unfold predict_proba_row
  dsimp only
  split
  · have hpos : (0 : ℚ) < ((feasible_set g).length : ℚ) := by
      exact_mod_cast feasible_set_length_pos hK
    rw [List.map_const']
    rw [List.sum_replicate]
    rw [nsmul_eq_mul]
    rw [mul_one_div]
    rw [div_self hpos.ne']
  · rw [sum_map_div]
    have hne : ((feasible_set g).map (vecScore g L m mu x)).sum ≠ 0 := by
      assumption
    field_simp


/-- A vote from a task index beyond the matrix list is an abstention by
default. -/
theorem vote_default_zero {L : List (List (List Nat))} {i : Nat}
    (h : L.length ≤ i) (j x : Nat) : vote L i j x = 0 := by
  unfold vote
  rw [List.getD_eq_default _ _ h]
  simp

/-- C1: for the two-task hierarchy `[2,3]` with edge `(0,1)` and
NOT-APPLICABLE class 3 of task 1, label 1 of task 0 signals "child not
applicable"; the vectors `(2,1)` and `(2,3)` are feasible, `(1,1)` is
infeasible, and every vector pairing the non-applicable parent label 1
with a task-1 label other than 3 is excluded. -/
theorem claim_C1 :
    TaskGraph.signalsNA g23 0 1 1 = true
    ∧ g23.is_feasible [2, 1] = true
    ∧ g23.is_feasible [2, 3] = true
    ∧ g23.is_feasible [1, 1] = false
    ∧ (∀ b, b ≠ 3 → g23.is_feasible [1, b] = false) := by
  refine ⟨by decide, by decide, by decide, by decide, ?_⟩
  intro b hb
  cases hfb : g23.is_feasible [1, b] with
  | false => rfl
  | true =>
    exfalso
    have hmem := mem_feasible_set.mpr hfb
    rw [feasible_set_g23] at hmem
    simp at hmem
    exact hb hmem

/-- C4: for every task graph the enumerator is duplicate-free, exhaustive
for the feasibility predicate, deterministic across invocations together
with its index mapping, and the index mapping inverts the enumeration. -/
theorem claim_C4 (g : TaskGraph) :
    (feasible_set g).Nodup
    ∧ (∀ y, y ∈ feasible_set g ↔ g.is_feasible y = true)
    ∧ (∀ g', g' = g → feasible_set g' = feasible_set g ∧ vecToIndex g' = vecToIndex g)
    ∧ (∀ i, ∀ h : i < (feasible_set g).length,
        vecToIndex g ((feasible_set g).get ⟨i, h⟩) = i) := by
  refine ⟨feasible_set_nodup g, fun y => mem_feasible_set, ?_, vecToIndex_get g⟩
  rintro g' rfl
  exact ⟨rfl, rfl⟩

/-- Witness for C4 at the two-task hierarchy: the second enumerated
vector maps back to index 1. -/
theorem claim_C4_witness :
    vecToIndex g23 ((feasible_set g23).get ⟨1, by decide⟩) = 1 :=
  (claim_C4 g23).2.2.2 1 (by decide)

/-- C6: construction-time validation succeeds exactly when the edges are
acyclic, every edge endpoint is a valid task index, and every edge's
child task has cardinality at least 2; it fails with a configuration
error whenever one of the three invariants is violated. -/
theorem claim_C6 (g : TaskGraph) :
    g.validate = Except.ok () ↔
      (¬ g.HasCycle ∧ g.EndpointsValid ∧ g.ChildCardsValid) := by
  unfold TaskGraph.validate
  cases hE : g.validEndpoints with
  | false =>
    rw [if_pos rfl]
    constructor
    · intro h; exact absurd h (by simp)
    · rintro ⟨-, hEp, -⟩
      have := (TaskGraph.validEndpoints_iff g).mpr hEp
      rw [hE] at this
      simp at this
  | true =>
    rw [if_neg (by simp)]
    cases hC : g.hasCycle with
    | true =>
      rw [if_pos rfl]
      constructor
      · intro h; exact absurd h (by simp)
      · rintro ⟨hnc, -, -⟩
        exact absurd ((TaskGraph.hasCycle_iff g hE).mp hC) hnc
    | false =>
      rw [if_neg (by simp)]
      cases hK : g.childCardsOK with
      | false =>
        rw [if_pos rfl]
        constructor
        · intro h; exact absurd h (by simp)
        · rintro ⟨-, -, hKp⟩
          have := (TaskGraph.childCardsOK_iff g).mpr hKp
          rw [hK] at this
          simp at this
      | true =>
        rw [if_neg (by simp)]
        constructor
        · intro _
          refine ⟨?_, (TaskGraph.validEndpoints_iff g).mp hE,
            (TaskGraph.childCardsOK_iff g).mp hK⟩
          intro hcy
          have := (TaskGraph.hasCycle_iff g hE).mpr hcy
          rw [hC] at this
          simp at this
        · intro _
          rfl

/-- Witness for C6: the notebook's hierarchy passes validation, hence has
no cycle, valid endpoints and valid child cardinalities. -/
theorem claim_C6_witness :
    ¬ g233.HasCycle ∧ g233.EndpointsValid ∧ g233.ChildCardsValid :=
  (claim_C6 g233).mp rfl


/-- C2: for every trained label model, `score` with `reduce_mode = none`
returns one accuracy per task, each in `[0, 1]`, and `score` with
`reduce_mode = mean` (the default) returns exactly their arithmetic
mean. -/
theorem claim_C2 (model : MTLabelModel) (mu : List ℚ)
    (hmu : model.mu = some mu) (L : List (List (List Nat)))
    (Y : List (List Nat)) :
    ∃ s, scoreTasks model L Y = Except.ok s
      ∧ s.length = model.task_graph.t
      ∧ (∀ q ∈ s, 0 ≤ q ∧ q ≤ 1)
      ∧ scoreMean model L Y = Except.ok (s.sum / (s.length : ℚ)) := by
  refine ⟨(List.range model.task_graph.t).map
    (taskAccuracy model.task_graph L Y mu), ?_, by simp, ?_, ?_⟩
  · unfold scoreTasks
    rw [hmu]
  · intro q hq
    obtain ⟨i, -, rfl⟩ := List.mem_map.mp hq
    unfold taskAccuracy
    constructor
    · exact div_nonneg (Nat.cast_nonneg _) (Nat.cast_nonneg _)
    · rcases Nat.eq_zero_or_pos (dims L).1 with h0 | hpos
      · rw [h0]
        simp
      · rw [div_le_one (by exact_mod_cast hpos)]
        have hle := List.length_filter_le
          (fun x => (predictVec model.task_graph L (dims L).2 mu x).getD i 0 ==
            (Y.getD i []).getD x 0) (List.range (dims L).1)
        have : ((List.range (dims L).1).filter
            (fun x => (predictVec model.task_graph L (dims L).2 mu x).getD i 0 ==
              (Y.getD i []).getD x 0)).length ≤ (dims L).1 := by
          simpa using hle
        exact_mod_cast this
  · unfold scoreMean scoreTasks
    rw [hmu]
    rfl

/-- Witness for C2 at a concrete trained model and input. -/
theorem claim_C2_witness :
    ∃ s, scoreTasks ⟨g23, some [7/10, 7/10]⟩ [[[1]], [[3]]] [[1], [3]] = Except.ok s
      ∧ s.length = TaskGraph.t g23
      ∧ (∀ q ∈ s, 0 ≤ q ∧ q ≤ 1)
      ∧ scoreMean ⟨g23, some [7/10, 7/10]⟩ [[[1]], [[3]]] [[1], [3]] =
          Except.ok (s.sum / (s.length : ℚ)) :=
  claim_C2 ⟨g23, some [7/10, 7/10]⟩ [7/10, 7/10] rfl [[[1]], [[3]]] [[1], [3]]

/-- C3: training is seed-deterministic and idempotent — two `train_model`
runs with the same seed, matrices and epoch count produce identical
accuracy parameters `mu` and identical `predict_proba` outputs,
independently of any previously trained parameters. -/
theorem claim_C3 (g : TaskGraph) (mu0 mu1 : Option (List ℚ))
    (L L' : List (List (List Nat))) (e s : Nat) :
    train_model ⟨g, mu0⟩ L e s = train_model ⟨g, mu1⟩ L e s
    ∧ ∀ M M', train_model ⟨g, mu0⟩ L e s = Except.ok M →
        train_model ⟨g, mu1⟩ L e s = Except.ok M' →
        M.mu = M'.mu ∧ predict_proba M L' = predict_proba M' L' := by
  have hbase : train_model ⟨g, mu0⟩ L e s = train_model ⟨g, mu1⟩ L e s := rfl
  refine ⟨hbase, ?_⟩
  intro M M' h1 h2
  rw [hbase] at h1
  rw [h1] at h2
  injection h2 with h3
  subst h3
  exact ⟨rfl, rfl⟩

/-- Witness for C3: a trained and an untrained model retrain to the same
result on a concrete input. -/
theorem claim_C3_witness :
    train_model ⟨g23, Option.none⟩ [[[1]], [[3]]] 2 5 =
      train_model ⟨g23, some [1/2]⟩ [[[1]], [[3]]] 2 5 :=
  (claim_C3 g23 Option.none (some [1/2]) [[[1]], [[3]]] [[[1]], [[3]]] 2 5).1

/-- C7: on well-formed input `train_model` terminates with the parameters
reached after exactly the configured number of epochs, whatever the loss
trajectory; shape errors are raised at the start of training, and no
error is ever raised mid-epoch. -/
theorem claim_C7 (model : MTLabelModel) (L : List (List (List Nat)))
    (e s : Nat) :
    (shapeOK model.task_graph L = true →
      train_model model L e s = Except.ok
        { task_graph := model.task_graph,
          mu := some ((muStep model.task_graph L (dims L).1
              (colList model.task_graph.t (dims L).2))^[e]
            (initMu s (colList model.task_graph.t (dims L).2).length)) })
    ∧ (shapeOK model.task_graph L = false →
      train_model model L e s = Except.error ModelError.shapeError) := by
  constructor
  · intro h
    unfold train_model
    rw [if_pos h]
  · intro h
    unfold train_model
    rw [if_neg (by simp [h])]

/-- Witness for C7: training succeeds on a concrete well-formed input. -/
theorem claim_C7_witness :
    (train_model ⟨g23, Option.none⟩ [[[1]], [[3]]] 3 7).isOk = true := by
  rw [(claim_C7 ⟨g23, Option.none⟩ [[[1]], [[3]]] 3 7).1 (by decide)]
  rfl


/-- C5: `predict_proba` and `score` on an UNTRAINED model fail with a
state error; every successful `train_model` leaves the model TRAINED; and
a trained model's `predict_proba` returns, for every example, a
distribution (nonnegative, summing to one) over the enumerated feasible
label vectors, provided every task has at least one label. -/
theorem claim_C5 (model : MTLabelModel) (L : List (List (List Nat)))
    (Y : List (List Nat)) :
    (model.mu = Option.none →
      predict_proba model L = Except.error ModelError.stateError
      ∧ scoreTasks model L Y = Except.error ModelError.stateError
      ∧ scoreMean model L Y = Except.error ModelError.stateError)
    ∧ (∀ (m0 : MTLabelModel) (L0 : List (List (List Nat))) (e s : Nat)
        (M : MTLabelModel),
        train_model m0 L0 e s = Except.ok M → ∃ mf, M.mu = some mf)
    ∧ (∀ mf, model.mu = some mf → (∀ k ∈ model.task_graph.K, 1 ≤ k) →
        ∃ rows, predict_proba model L = Except.ok rows
          ∧ rows.length = (dims L).1
          ∧ ∀ row ∈ rows,
              row.length = (feasible_set model.task_graph).length
              ∧ (∀ q ∈ row, 0 ≤ q)
              ∧ row.sum = 1) := by
  refine ⟨?_, ?_, ?_⟩
  · intro h
    refine ⟨?_, ?_, ?_⟩
    · unfold predict_proba
      rw [h]
    · unfold scoreTasks
      rw [h]
    · unfold scoreMean scoreTasks
      rw [h]
      rfl
  · intro m0 L0 e s M htr
    unfold train_model at htr
    split at htr
    · injection htr with h1
      exact ⟨_, by rw [← h1]⟩
    · exact absurd htr (by simp)
  · intro mf hmf hK
    refine ⟨(List.range (dims L).1).map
      (fun x => predict_proba_row model.task_graph L (dims L).2 mf x),
      ?_, by simp, ?_⟩
    · unfold predict_proba
      rw [hmf]
    · intro row hrow
      obtain ⟨x, -, rfl⟩ := List.mem_map.mp hrow
      exact ⟨predict_proba_row_length _ _ _ _ _,
        predict_proba_row_nonneg _ _ _ _ _ hK,
        predict_proba_row_sum _ _ _ _ _ hK⟩

/-- Witness for C5: the state error on a concrete untrained model. -/
theorem claim_C5_witness :
    predict_proba ⟨g23, Option.none⟩ [[[1]], [[3]]] =
        Except.error ModelError.stateError
    ∧ scoreTasks ⟨g23, Option.none⟩ [[[1]], [[3]]] [[1], [3]] =
        Except.error ModelError.stateError
    ∧ scoreMean ⟨g23, Option.none⟩ [[[1]], [[3]]] [[1], [3]] =
        Except.error ModelError.stateError :=
  (claim_C5 ⟨g23, Option.none⟩ [[[1]], [[3]]] [[1], [3]]).1 rfl

/-- C8: if labeling function `j` abstains on every example of every task,
all overlap statistics involving its vote columns are zero, and training
leaves each of its accuracy parameters at the seeded initial (prior)
value. -/
theorem claim_C8 (g : TaskGraph) (L : List (List (List Nat))) (e s j : Nat)
    (habs : ∀ i, i < L.length → ∀ x, x < (dims L).1 → vote L i j x = 0) :
    (∀ a b : Nat × Nat, a.2 = j ∨ b.2 = j →
      coCount L a b (dims L).1 = 0 ∧ agreeCount g L (dims L).1 a b = 0)
    ∧ ∀ (mu0 : Option (List ℚ)) (M : MTLabelModel),
        train_model ⟨g, mu0⟩ L e s = Except.ok M →
        ∃ mf, M.mu = some mf
          ∧ ∀ ai, ai < (colList g.t (dims L).2).length →
              ((colList g.t (dims L).2).getD ai (0, 0)).2 = j →
              mf.getD ai 0 =
                (initMu s (colList g.t (dims L).2).length).getD ai 0 := by
  have habs' : ∀ a : Nat × Nat, a.2 = j →
      ∀ x, x < (dims L).1 → vote L a.1 a.2 x = 0 := by
    intro a ha x hx
    rcases Nat.lt_or_ge a.1 L.length with hlt | hge
    · rw [ha]
      exact habs a.1 hlt x hx
    · exact vote_default_zero hge a.2 x
  constructor
  · intro a b hab
    rcases hab with ha | hb
    · exact ⟨coCount_eq_zero_left (habs' a ha) b,
        agreeCount_eq_zero_left (habs' a ha) b⟩
    · exact ⟨coCount_eq_zero_right (habs' b hb) a,
        agreeCount_eq_zero_right (habs' b hb) a⟩
  · intro mu0 M htr
    unfold train_model at htr
    split at htr
    · injection htr with h1
      subst h1
      refine ⟨_, rfl, ?_⟩
      intro ai h_ai hcol
      exact iterate_abstain_fixed h_ai (habs' _ hcol) _ _
    · exact absurd htr (by simp)

/-- Witness for C8: on a two-task input whose single labeling function
abstains everywhere, training keeps every accuracy parameter at its
seeded prior. -/
theorem claim_C8_witness :
    (∀ a b : Nat × Nat, a.2 = 0 ∨ b.2 = 0 →
      coCount [[[0]], [[0]]] a b (dims [[[0]], [[0]]]).1 = 0
      ∧ agreeCount g23 [[[0]], [[0]]] (dims [[[0]], [[0]]]).1 a b = 0)
    ∧ ∀ (mu0 : Option (List ℚ)) (M : MTLabelModel),
        train_model ⟨g23, mu0⟩ [[[0]], [[0]]] 3 1 = Except.ok M →
        ∃ mf, M.mu = some mf
          ∧ ∀ ai, ai < (colList (TaskGraph.t g23) (dims [[[0]], [[0]]]).2).length →
              ((colList (TaskGraph.t g23) (dims [[[0]], [[0]]]).2).getD ai (0, 0)).2 = 0 →
              mf.getD ai 0 =
                (initMu 1 (colList (TaskGraph.t g23) (dims [[[0]], [[0]]]).2).length).getD ai 0 :=
  claim_C8 g23 [[[0]], [[0]]] 3 1 0 (by decide)


/-- The argmax index is within bounds for a nonempty list. -/
theorem argmaxIdx_lt (qs : List ℚ) (h : 0 < qs.length) :
    argmaxIdx qs < qs.length := by
  unfold argmaxIdx
  have hgen : ∀ (l : List Nat) (b : Nat), b < qs.length →
      (∀ i ∈ l, i < qs.length) →
      (l.foldl (fun best i => if qs.getD best 0 < qs.getD i 0 then i else best) b) <
        qs.length := by
    intro l
    induction l with
    | nil => intro b hb _; simpa using hb
    | cons a l' ih =>
      intro b hb hall
      rw [List.foldl_cons]
      apply ih
      · by_cases hc : qs.getD b 0 < qs.getD a 0
        · rw [if_pos hc]; exact hall a (List.mem_cons_self a l')
        · rw [if_neg hc]; exact hb
      · intro i hi
        exact hall i (List.mem_cons_of_mem a hi)
  exact hgen (List.range qs.length) 0 h (fun i hi => List.mem_range.mp hi)

/-- The label model's hard joint prediction is always a member of the
enumerated feasible set (when every cardinality is positive). -/
theorem predictVec_mem (g : TaskGraph) (L : List (List (List Nat))) (m : Nat)
    (mu : List ℚ) (x : Nat) (hK : ∀ k ∈ g.K, 1 ≤ k) :
    predictVec g L m mu x ∈ feasible_set g := by
  unfold predictVec
  have hlt : argmaxIdx (predict_proba_row g L m mu x) < (feasible_set g).length := by
    have := argmaxIdx_lt (predict_proba_row g L m mu x)
      (by rw [predict_proba_row_length]; exact feasible_set_length_pos hK)
    rwa [predict_proba_row_length] at this
  rw [List.getD_eq_getElem (feasible_set g) [] hlt]
  exact List.getElem_mem _

/-- The label model's hard joint prediction satisfies the feasibility
predicate. -/
theorem predictVec_feasible (g : TaskGraph) (L : List (List (List Nat)))
    (m : Nat) (mu : List ℚ) (x : Nat) (hK : ∀ k ∈ g.K, 1 ≤ k) :
    g.is_feasible (predictVec g L m mu x) = true :=
  mem_feasible_set.mp (predictVec_mem g L m mu x hK)

/-- The end model's per-task decoded label is 1-based and, for a nonempty
head, within the head's label range. -/
theorem headPredict_range (scores : List ℚ) :
    1 ≤ headPredict scores ∧ (0 < scores.length → headPredict scores ≤ scores.length) := by
  constructor
  · unfold headPredict; omega
  · intro h
    unfold headPredict
    have := argmaxIdx_lt scores h
    omega

/-- Componentwise description of the end model's decoding. -/
theorem endPredict_getD (heads : List (List ℚ)) (i : Nat) (h : i < heads.length) :
    (endPredict heads).getD i 0 = headPredict (heads.getD i []) := by
  unfold endPredict
  have h1 : i < (heads.map headPredict).length := by simpa using h
  rw [List.getD_eq_getElem _ _ h1, List.getElem_map,
    List.getD_eq_getElem heads [] h]


/-- Counterexample for C10: the end model decodes each task head
independently, and from concrete head scores it emits the joint
prediction `(1, 3, 1)` — task 0 predicted 1 with the task-2 prediction 1
instead of the NOT-APPLICABLE index 3 — which violates the hierarchy's
feasibility predicate while every per-task label is in range.  This is
exactly the infeasible joint prediction recorded in the notebook's output
at test examples 64 and 77. -/
theorem claim_C10_counterexample :
    endPredict [[2, 1], [0, 0, 5], [9, 0, 0]] = [1, 3, 1]
    ∧ g233.is_feasible [1, 3, 1] = false
    ∧ (∀ i, i < 3 → 1 ≤ [1, 3, 1].getD i 0 ∧ [1, 3, 1].getD i 0 ≤ g233.card i) := by
  refine ⟨by decide, by decide, by decide⟩

/-- C10 (amended): the label model's joint hard predictions always form a
feasible vector of the task graph (whenever every task has at least one
label); the end model's decoding is per-task independent, so each of its
per-task predictions lies in that head's 1-based label range, but joint
feasibility across tasks is not guaranteed. -/
theorem claim_C10 :
    (∀ (g : TaskGraph) (L : List (List (List Nat))) (m : Nat) (mu : List ℚ)
      (x : Nat), (∀ k ∈ g.K, 1 ≤ k) →
        g.is_feasible (predictVec g L m mu x) = true)
    ∧ (∀ heads : List (List ℚ), ∀ i, i < heads.length →
        1 ≤ (endPredict heads).getD i 0
        ∧ (0 < (heads.getD i []).length →
            (endPredict heads).getD i 0 ≤ (heads.getD i []).length)) := by
  constructor
  · intro g L m mu x hK
    exact predictVec_feasible g L m mu x hK
  · intro heads i hi
    rw [endPredict_getD heads i hi]
    exact headPredict_range _

/-- Witness for C10 (amended): a concrete trained label model's joint
prediction is feasible. -/
theorem claim_C10_witness :
    TaskGraph.is_feasible g23 (predictVec g23 [[[1]], [[3]]] 1 [7/10, 7/10] 0) = true :=
  claim_C10.1 g23 [[[1]], [[3]]] 1 [7/10, 7/10] 0 (by decide)

end Metal
